import Mathlib

/-!
Verification of the Normalized Entropy (NE) metric core
(src/torchrec/metrics/ne.py) against its specification.

Tensors are modelled over the reals: a one-dimensional per-task vector is a
list of reals, a (task, batch) tensor is a list of rows.  Element-wise tensor
operations become zipWith and map; the reduction over the batch dimension
becomes List.sum over each row.  torch.log2 is Real.logb 2 and torch.clamp
with both bounds is min (max x lo) hi.
-/

namespace TorchrecNE

noncomputable section

/-- A (task, batch) shaped tensor: one list of reals per task. -/
abbrev T2 := List (List ℝ)

/-- Model of torch.log2. -/
def log2 (x : ℝ) : ℝ := Real.logb 2 x

/-- Model of torch.clamp with a lower and an upper bound. -/
def clampR (x lo hi : ℝ) : ℝ := min (max x lo) hi

/-- Element-wise map over a (task, batch) tensor. -/
def map2 (f : ℝ → ℝ) (a : T2) : T2 := a.map (List.map f)

/-- Element-wise binary operation over two (task, batch) tensors. -/
def zip2 (f : ℝ → ℝ → ℝ) (a b : T2) : T2 := List.zipWith (List.zipWith f) a b

/-- Ternary zipWith, used for element-wise operations over three tensors. -/
def zipWith3R (f : α → β → γ → δ) : List α → List β → List γ → List δ
  | a :: as, b :: bs, c :: cs => f a b c :: zipWith3R f as bs cs
  | _, _, _ => []

@[simp]
theorem zipWith3R_cons (f : α → β → γ → δ) (a : α) (as : List α) (b : β) (bs : List β)
    (c : γ) (cs : List γ) :
    zipWith3R f (a :: as) (b :: bs) (c :: cs) = f a b c :: zipWith3R f as bs cs := rfl

@[simp]
theorem zipWith3R_nil_left (f : α → β → γ → δ) (bs : List β) (cs : List γ) :
    zipWith3R f [] bs cs = [] := rfl

@[simp]
theorem zipWith3R_nil_mid (f : α → β → γ → δ) (as : List α) (cs : List γ) :
    zipWith3R f as [] cs = [] := by cases as <;> rfl

@[simp]
theorem zipWith3R_nil_right (f : α → β → γ → δ) (as : List α) (bs : List β) :
    zipWith3R f as bs [] = [] := by cases as <;> cases bs <;> rfl

/-- The weighted cross-entropy of one example whose prediction has already
been clamped: the body of the tensor expression in compute_cross_entropy. -/
def ceElem (l p w : ℝ) : ℝ := -(w * l * log2 p) - w * (1 - l) * log2 (1 - p)

/-- Model of compute_cross_entropy: promote predictions to double (exact in
the real-valued model), clamp them into [eta, 1 - eta] and form the
element-wise weighted binary cross-entropy. -/
def compute_cross_entropy (labels predictions weights : T2) (eta : ℝ) : T2 :=
  let p2 := map2 (fun x => clampR x eta (1 - eta)) predictions
  zipWith3R (fun lr pr wr => zipWith3R ceElem lr pr wr) labels p2 weights

/-- Model of the helper that computes the cross-entropy of the
constant-mean-label baseline: clamp the mean label and combine the positive
and negative label masses with the two logarithms. -/
def _compute_cross_entropy_norm (mean_label pos_labels neg_labels : List ℝ) (eta : ℝ) :
    List ℝ :=
  let m2 := mean_label.map (fun x => clampR x eta (1 - eta))
  zipWith3R (fun m p n => -(p * log2 m) - n * log2 (1 - m)) m2 pos_labels neg_labels

open Classical in
/-- Model of compute_ne: when the flag is set and some task has zero weighted
samples, the whole report collapses to the single-element sentinel; otherwise
divide the accumulated cross-entropy by the baseline normalizer. -/
def compute_ne (ce_sum weighted_num_samples pos_labels neg_labels : List ℝ) (eta : ℝ)
    (allow_missing_label_with_zero_weight : Bool) : List ℝ :=
  if allow_missing_label_with_zero_weight = true ∧ ∃ x ∈ weighted_num_samples, x = 0 then
    [eta]
  else
    let mean_label := List.zipWith (· / ·) pos_labels weighted_num_samples
    List.zipWith (· / ·) ce_sum
      (_compute_cross_entropy_norm mean_label pos_labels neg_labels eta)

/-- Model of compute_logloss: the denominator is floored at eta, the
numerator is left as accumulated. -/
def compute_logloss (ce_sum pos_labels neg_labels : List ℝ) (eta : ℝ) : List ℝ :=
  let labels_sum := (List.zipWith (· + ·) pos_labels neg_labels).map (fun x => max x eta)
  List.zipWith (· / ·) ce_sum labels_sum

/-- The quadruple of per-task sufficient statistics. -/
structure NEStates where
  cross_entropy_sum : List ℝ
  weighted_num_samples : List ℝ
  pos_labels : List ℝ
  neg_labels : List ℝ

/-- Model of get_ne_states: reduce one batch to the four per-task sums. -/
def get_ne_states (labels predictions weights : T2) (eta : ℝ) : NEStates :=
  ⟨(compute_cross_entropy labels predictions weights eta).map List.sum,
   weights.map List.sum,
   (zip2 (· * ·) weights labels).map List.sum,
   (zip2 (fun w l => w * (1 - l)) weights labels).map List.sum⟩

/-- Element-wise sum of two statistic quadruples. -/
def addStates (s t : NEStates) : NEStates :=
  ⟨List.zipWith (· + ·) s.cross_entropy_sum t.cross_entropy_sum,
   List.zipWith (· + ·) s.weighted_num_samples t.weighted_num_samples,
   List.zipWith (· + ·) s.pos_labels t.pos_labels,
   List.zipWith (· + ·) s.neg_labels t.neg_labels⟩

/-- The zero-initialized quadruple for n tasks. -/
def zeroStates (n : ℕ) : NEStates :=
  ⟨List.replicate n 0, List.replicate n 0, List.replicate n 0, List.replicate n 0⟩

/-- The fixed stability constant of NEMetricComputation. -/
def neEta : ℝ := 1 / 10 ^ 12

/-- The mutable state of one NEMetricComputation instance: the lifetime
accumulators together with the per-batch contributions handed to the window
collaborator, newest last. -/
structure NEState where
  lifetime : NEStates
  history : List NEStates

/-- The state right after construction: all lifetime vectors zero, no batch
seen yet. -/
def initNEState (n : ℕ) : NEState := ⟨zeroStates n, []⟩

/-- Model of RecMetricException: the input-contract violation raised by
update when predictions or weights is absent. -/
inductive RecMetricException where
  | missingInput
deriving DecidableEq

namespace NEMetricComputation

/-- Model of NEMetricComputation.update: when predictions or weights is
absent the exception is raised before any state is touched; otherwise the
batch statistics are added into the lifetime accumulators and appended to
the window history. -/
def update (s : NEState) (predictions : Option T2) (labels : T2) (weights : Option T2) :
    NEState × Option RecMetricException :=
  match predictions, weights with
  | some p, some w =>
    ⟨⟨addStates s.lifetime (get_ne_states labels p w neEta),
      s.history ++ [get_ne_states labels p w neEta]⟩, none⟩
  | _, _ => ⟨s, some RecMetricException.missingInput⟩

end NEMetricComputation

/-- Modelled from the spec: the window view kept by the external windowing
collaborator of rec_metric (not under src) is the element-wise sum of the
most recent batch contributions; k is the number of batches the bounded
window currently holds. -/
def windowView (n : ℕ) (s : NEState) (k : ℕ) : NEStates :=
  (s.history.drop (s.history.length - k)).foldl addStates (zeroStates n)

/-- Two (task, batch) tensors have the same shape: same number of task rows
and rows of equal lengths. -/
def SameShape2 (a b : T2) : Prop := List.Forall₂ (fun r s => r.length = s.length) a b

/-- A well-formed batch for an n-task computation: the three tensors agree in
shape and have one row per task, as torch element-wise arithmetic demands. -/
def WellFormedBatch (n : ℕ) (labels predictions weights : T2) : Prop :=
  labels.length = n ∧ SameShape2 labels predictions ∧ SameShape2 labels weights

/-- The states of NEMetricComputation reachable from construction through
well-formed update calls. -/
inductive Reachable (n : ℕ) : NEState → Prop
  | init : Reachable n (initNEState n)
  | step {s : NEState} {labels predictions weights : T2} :
      Reachable n s → WellFormedBatch n labels predictions weights →
      Reachable n (NEMetricComputation.update s (some predictions) labels (some weights)).1

/-- The shape and balance invariant of a statistic quadruple for n tasks:
all four vectors have one entry per task and the positive and negative label
masses add up to the weighted sample count. -/
def StatesInv (n : ℕ) (q : NEStates) : Prop :=
  q.cross_entropy_sum.length = n ∧ q.weighted_num_samples.length = n ∧
  q.pos_labels.length = n ∧ q.neg_labels.length = n ∧
  List.zipWith (· + ·) q.pos_labels q.neg_labels = q.weighted_num_samples

/-- Batch concatenation along the batch dimension: append each task row. -/
def hcat (a b : T2) : T2 := List.zipWith (· ++ ·) a b

/-- Tensor dtype, as far as the aliasing behaviour of Tensor.double is
concerned. -/
inductive DType where
  | float
  | double
deriving DecidableEq

/-- A tensor together with its dtype, for the frame property of
compute_cross_entropy. -/
structure Tensor where
  dtype : DType
  data : T2

/-- Model of compute_cross_entropy together with its effect on the callers
predictions tensor.  Modelled from the documented semantics of the tensor
library assumed by the spec: Tensor.double returns the receiver itself when
its dtype is already double and a fresh converted copy otherwise, and the
in-place clamp mutates its receiver; labels and weights are only read, so the
pair returned is (result, the predictions tensor as the caller sees it after
the call). -/
def computeCrossEntropyWithEffect (labels predictions weights : Tensor) (eta : ℝ) :
    T2 × Tensor :=
  let p2 := map2 (fun x => clampR x eta (1 - eta)) predictions.data
  ⟨zipWith3R (fun lr pr wr => zipWith3R ceElem lr pr wr) labels.data p2 weights.data,
   if predictions.dtype = DType.double then ⟨DType.double, p2⟩ else predictions⟩

/-- The NE formula exactly as the spec words it: mean_label is the ratio of
positive mass to weighted samples clamped into [eta, 1 - eta], the
normalizer combines both logarithms, and the result divides the accumulated
cross-entropy by the normalizer. -/
def specNEFormula (ce_sum wns pos neg : List ℝ) (eta : ℝ) : List ℝ :=
  let mean_label := List.zipWith (fun p w => clampR (p / w) eta (1 - eta)) pos wns
  List.zipWith (· / ·) ce_sum
    (zipWith3R (fun m p n => -(p * log2 m) - n * log2 (1 - m)) mean_label pos neg)

/-- The cross-entropy formula exactly as the spec words it, with the clamp
written inside each element. -/
def specCE (labels predictions weights : T2) (eta : ℝ) : T2 :=
  zipWith3R (fun lr pr wr =>
    zipWith3R (fun l p w =>
      -(w * l * log2 (clampR p eta (1 - eta)))
        - w * (1 - l) * log2 (1 - clampR p eta (1 - eta))) lr pr wr)
    labels predictions weights

/-- Clamping never exceeds the upper bound. -/
theorem clampR_le (x lo hi : ℝ) : clampR x lo hi ≤ hi := min_le_right _ _

/-- Clamping never undershoots the lower bound when the bounds are ordered. -/
theorem le_clampR (x lo hi : ℝ) (h : lo ≤ hi) : lo ≤ clampR x lo hi :=
  le_min (le_max_right x lo) h

/-- Clamping a value already inside the bounds is the identity. -/
theorem clampR_eq_self (x lo hi : ℝ) (h1 : lo ≤ x) (h2 : x ≤ hi) : clampR x lo hi = x := by
  unfold clampR
  rw [max_eq_left h1, min_eq_left h2]

/-- Pushing a map through the middle argument of zipWith3R. -/
theorem zipWith3R_map_middle (f : α → β → γ → δ) (g : ε → β) :
    ∀ (as : List α) (bs : List ε) (cs : List γ),
      zipWith3R f as (bs.map g) cs = zipWith3R (fun a b c => f a (g b) c) as bs cs
  | [], _, _ => rfl
  | _ :: _, [], _ => rfl
  | _ :: _, _ :: _, [] => rfl
  | a :: as, b :: bs, c :: cs => by
      simp [zipWith3R_map_middle f g as bs cs]

/-- C2: with allow_missing_label_with_zero_weight set and some task whose
weighted_num_samples is exactly zero, compute_ne returns the single-element
sentinel [eta], whatever the other inputs are. -/
theorem compute_ne_sentinel (ce_sum wns pos neg : List ℝ) (eta : ℝ)
    (h : ∃ x ∈ wns, x = 0) :
    compute_ne ce_sum wns pos neg eta true = [eta] := by
  unfold compute_ne
  rw [if_pos ⟨rfl, h⟩]

theorem compute_ne_sentinel_witness :
    compute_ne [1, 2] [0, 3] [0, 1] [0, 2] (1 / 4) true = [1 / 4] :=
  compute_ne_sentinel [1, 2] [0, 3] [0, 1] [0, 2] (1 / 4) ⟨0, by norm_num, rfl⟩

/-- C7: compute_logloss divides the accumulated cross-entropy by the label
mass floored at eta, so the denominator is always positive while the
numerator is left unclamped. -/
theorem compute_logloss_spec (ce_sum pos neg : List ℝ) (eta : ℝ) (h : 0 < eta) :
    compute_logloss ce_sum pos neg eta
      = List.zipWith (· / ·) ce_sum (List.zipWith (fun p n => max (p + n) eta) pos neg)
    ∧ ∀ p n : ℝ, 0 < max (p + n) eta := by
  constructor
  · unfold compute_logloss
    rw [List.map_zipWith]
  · intro p n
    exact lt_of_lt_of_le h (le_max_right _ _)

theorem compute_logloss_spec_witness :
    compute_logloss [1] [0] [0] (1 / 4)
      = List.zipWith (· / ·) [1] (List.zipWith (fun p n => max (p + n) (1 / 4)) [0] [0])
    ∧ ∀ p n : ℝ, 0 < max (p + n) (1 / 4) :=
  compute_logloss_spec [1] [0] [0] (1 / 4) (by norm_num)

/-- C6: update raises exactly when predictions or weights is absent, and in
that case the state is returned untouched: the check precedes every
mutation. -/
theorem update_error_iff (s : NEState) (predictions : Option T2) (labels : T2)
    (weights : Option T2) :
    ((NEMetricComputation.update s predictions labels weights).2 ≠ none
      ↔ (predictions = none ∨ weights = none))
    ∧ ((predictions = none ∨ weights = none)
      → (NEMetricComputation.update s predictions labels weights).1 = s) := by
  cases predictions <;> cases weights <;> simp [NEMetricComputation.update]

theorem update_error_iff_witness :
    (NEMetricComputation.update (initNEState 1) none [] none).2 ≠ none
    ∧ (NEMetricComputation.update (initNEState 1) none [] none).1 = initNEState 1 :=
  ⟨(update_error_iff (initNEState 1) none [] none).1.mpr (Or.inl rfl),
   (update_error_iff (initNEState 1) none [] none).2 (Or.inl rfl)⟩

/-- C1: whenever the sentinel branch is not taken (flag off, or every task
has nonzero weighted samples), compute_ne is exactly the spec formula
ce_sum / ce_norm with the clamped mean label; in particular with the flag
off the division is unguarded, and at a task with zero weighted samples and
zero label masses the normalizer is exactly 0, so the final division is a
division by zero. -/
theorem compute_ne_no_sentinel (ce_sum wns pos neg : List ℝ) (eta : ℝ) (allow : Bool)
    (h : allow = false ∨ ∀ x ∈ wns, x ≠ 0) :
    compute_ne ce_sum wns pos neg eta allow = specNEFormula ce_sum wns pos neg eta
    ∧ _compute_cross_entropy_norm (List.zipWith (· / ·) [(0 : ℝ)] [0]) [0] [0] eta
        = [0] := by
  constructor
  · have hcond : ¬(allow = true ∧ ∃ x ∈ wns, x = 0) := by
      rintro ⟨ha, x, hx, hx0⟩
      rcases h with h | h
      · rw [h] at ha
        exact Bool.false_ne_true ha
      · exact h x hx hx0
    simp only [compute_ne, specNEFormula, _compute_cross_entropy_norm, if_neg hcond]
    rw [List.map_zipWith]
  · simp only [_compute_cross_entropy_norm, List.zipWith_cons_cons, List.zipWith_nil_right,
      List.map_cons, List.map_nil, zipWith3R_cons, zipWith3R_nil_left]
    norm_num

theorem compute_ne_no_sentinel_witness :
    compute_ne [1] [0] [0] [0] (1 / 4) false = specNEFormula [1] [0] [0] [0] (1 / 4)
    ∧ _compute_cross_entropy_norm (List.zipWith (· / ·) [(0 : ℝ)] [0]) [0] [0] (1 / 4)
        = [0] :=
  compute_ne_no_sentinel [1] [0] [0] [0] (1 / 4) false (Or.inl rfl)

/-- C3: compute_cross_entropy is exactly the element-wise clamped
cross-entropy formula of the spec, and the clamped prediction always lies in
[eta, 1 - eta], strictly between 0 and 1, so neither logarithm is taken at
zero even for predictions exactly 0 or 1. -/
theorem compute_cross_entropy_spec (labels predictions weights : T2) (eta : ℝ)
    (h0 : 0 < eta) (h2 : eta < 1 / 2) :
    compute_cross_entropy labels predictions weights eta
      = specCE labels predictions weights eta
    ∧ ∀ x : ℝ, eta ≤ clampR x eta (1 - eta) ∧ clampR x eta (1 - eta) ≤ 1 - eta
        ∧ 0 < clampR x eta (1 - eta) ∧ clampR x eta (1 - eta) < 1 := by
  constructor
  · simp only [compute_cross_entropy, specCE, map2]
    rw [zipWith3R_map_middle]
    congr 1
    funext lr pr wr
    rw [zipWith3R_map_middle]
    simp only [ceElem]
  · intro x
    have hle : eta ≤ 1 - eta := by linarith
    have hcl1 : eta ≤ clampR x eta (1 - eta) := le_clampR x eta (1 - eta) hle
    have hcl2 : clampR x eta (1 - eta) ≤ 1 - eta := clampR_le x eta (1 - eta)
    exact ⟨hcl1, hcl2, lt_of_lt_of_le h0 hcl1, lt_of_le_of_lt hcl2 (by linarith)⟩

theorem compute_cross_entropy_spec_witness :
    compute_cross_entropy [[1]] [[0]] [[1]] (1 / 4) = specCE [[1]] [[0]] [[1]] (1 / 4)
    ∧ ∀ x : ℝ, (1 : ℝ) / 4 ≤ clampR x (1 / 4) (1 - 1 / 4)
        ∧ clampR x (1 / 4) (1 - 1 / 4) ≤ 1 - 1 / 4
        ∧ 0 < clampR x (1 / 4) (1 - 1 / 4) ∧ clampR x (1 / 4) (1 - 1 / 4) < 1 :=
  compute_cross_entropy_spec [[1]] [[0]] [[1]] (1 / 4) (by norm_num) (by norm_num)

/-- C9 counterexample: when the predictions tensor is already double
precision, Tensor.double returns the same object and the in-place clamp
mutates it, so after the call the caller no longer sees the original data:
with predictions [[0]] and eta 1/4 the caller sees [[1/4]]. -/
theorem compute_cross_entropy_mutates_double :
    (computeCrossEntropyWithEffect ⟨DType.double, [[1]]⟩ ⟨DType.double, [[0]]⟩
        ⟨DType.double, [[1]]⟩ (1 / 4)).2.data ≠ [[(0 : ℝ)]] := by
  have h1 : clampR 0 (1 / 4) (1 - 1 / 4) = 1 / 4 := by
    unfold clampR
    rw [max_eq_right (by norm_num : (0 : ℝ) ≤ 1 / 4), min_eq_left (by norm_num)]
  simp [computeCrossEntropyWithEffect, map2, h1]
  rw [show (4 : ℝ)⁻¹ = 1 / 4 by norm_num, show (1 : ℝ) - 1 / 4 = 1 - 1 / 4 by norm_num, h1]
  norm_num

/-- C9 amended: the call never touches labels or weights and returns the
pure cross-entropy value; the callers predictions tensor is unchanged when
its dtype is not double, but when it is already double the in-place clamp
overwrites it with the clamped data. -/
theorem compute_cross_entropy_effect_frame (labels predictions weights : Tensor) (eta : ℝ) :
    ((computeCrossEntropyWithEffect labels predictions weights eta).1
        = compute_cross_entropy labels.data predictions.data weights.data eta)
    ∧ (predictions.dtype ≠ DType.double
        → (computeCrossEntropyWithEffect labels predictions weights eta).2 = predictions)
    ∧ (predictions.dtype = DType.double
        → (computeCrossEntropyWithEffect labels predictions weights eta).2
            = ⟨DType.double, map2 (fun x => clampR x eta (1 - eta)) predictions.data⟩) := by
  refine ⟨rfl, ?_, ?_⟩ <;> intro h <;>
    simp [computeCrossEntropyWithEffect, h]

theorem compute_cross_entropy_effect_frame_witness :
    (computeCrossEntropyWithEffect ⟨DType.float, [[1]]⟩ ⟨DType.float, [[0]]⟩
        ⟨DType.float, [[1]]⟩ (1 / 4)).2 = ⟨DType.float, [[0]]⟩ :=
  (compute_cross_entropy_effect_frame ⟨DType.float, [[1]]⟩ ⟨DType.float, [[0]]⟩
    ⟨DType.float, [[1]]⟩ (1 / 4)).2.1 (by simp)

/-- Shapes are symmetric. -/
theorem SameShape2.symm {a b : T2} (h : SameShape2 a b) : SameShape2 b a := by
  induction h with
  | nil => exact List.Forall₂.nil
  | cons hr _ ih => exact List.Forall₂.cons hr.symm ih

/-- Mapping over the rows keeps the shape. -/
theorem SameShape2.map2_right (g : ℝ → ℝ) {a b : T2} (h : SameShape2 a b) :
    SameShape2 a (map2 g b) := by
  induction h with
  | nil => exact List.Forall₂.nil
  | cons hr _ ih => exact List.Forall₂.cons (by simp [hr]) ih

/-- Row sums after batch concatenation are the sums of the two batches. -/
theorem map_sum_hcat : ∀ a b : T2,
    (hcat a b).map List.sum = List.zipWith (· + ·) (a.map List.sum) (b.map List.sum)
  | [], _ => by simp [hcat]
  | _ :: _, [] => by simp [hcat]
  | r :: rs, s :: ss => by
      have ih := map_sum_hcat rs ss
      simp only [hcat] at ih ⊢
      simp only [List.zipWith_cons_cons, List.map_cons, List.sum_append, ih]

/-- Element-wise maps distribute over batch concatenation. -/
theorem map2_hcat (g : ℝ → ℝ) : ∀ a b : T2,
    map2 g (hcat a b) = hcat (map2 g a) (map2 g b)
  | [], _ => by simp [hcat, map2]
  | _ :: _, [] => by simp [hcat, map2]
  | r :: rs, s :: ss => by
      simpa [hcat, map2] using map2_hcat g rs ss

/-- Element-wise binary operations distribute over batch concatenation when
the first batch is well-shaped. -/
theorem zip2_hcat (f : ℝ → ℝ → ℝ) {a1 b1 : T2} (h : SameShape2 a1 b1) :
    ∀ (a2 b2 : T2),
      zip2 f (hcat a1 a2) (hcat b1 b2) = hcat (zip2 f a1 b1) (zip2 f a2 b2) := by
  induction h with
  | nil =>
    intro a2 b2
    simp [hcat, zip2]
  | @cons r s rs ss hr _ ih =>
    intro a2 b2
    cases a2 with
    | nil => simp [hcat, zip2]
    | cons x xs =>
      cases b2 with
      | nil => simp [hcat, zip2]
      | cons y ys =>
        simp only [hcat, zip2, List.zipWith_cons_cons]
        rw [List.zipWith_append _ _ _ _ _ hr]
        simpa [hcat, zip2] using ih xs ys

/-- Ternary zipWith on rows distributes over append when the first blocks
are aligned. -/
theorem zipWith3R_append (f : α → β → γ → δ) :
    ∀ (r : List α) (s : List β) (t : List γ) (x : List α) (y : List β) (z : List γ),
      r.length = s.length → r.length = t.length →
      zipWith3R f (r ++ x) (s ++ y) (t ++ z) = zipWith3R f r s t ++ zipWith3R f x y z := by
  intro r
  induction r with
  | nil =>
    intro s t x y z hs ht
    cases s with
    | nil =>
      cases t with
      | nil => simp
      | cons c cs => simp at ht
    | cons b bs => simp at hs
  | cons a as ih =>
    intro s t x y z hs ht
    cases s with
    | nil => simp at hs
    | cons b bs =>
      cases t with
      | nil => simp at ht
      | cons c cs =>
        simp only [List.cons_append, zipWith3R_cons]
        rw [ih bs cs x y z (by simpa using hs) (by simpa using ht)]

/-- The row-wise ternary zipWith of a well-shaped batch distributes over
batch concatenation. -/
theorem zipWith3R_rows_hcat (g : ℝ → ℝ → ℝ → ℝ) :
    ∀ {l1 p1 : T2}, SameShape2 l1 p1 →
      ∀ {w1 : T2}, SameShape2 l1 w1 →
      ∀ (l2 p2 w2 : T2),
        zipWith3R (fun lr pr wr => zipWith3R g lr pr wr)
            (hcat l1 l2) (hcat p1 p2) (hcat w1 w2)
          = hcat (zipWith3R (fun lr pr wr => zipWith3R g lr pr wr) l1 p1 w1)
              (zipWith3R (fun lr pr wr => zipWith3R g lr pr wr) l2 p2 w2) := by
  intro l1 p1 hp
  induction hp with
  | nil =>
    intro w1 hw l2 p2 w2
    cases hw
    simp [hcat]
  | @cons lr pr ls ps hr _ ih =>
    intro w1 hw l2 p2 w2
    cases hw with
    | cons hrw hw2 =>
      cases l2 with
      | nil => simp [hcat]
      | cons la l2t =>
        cases p2 with
        | nil => simp [hcat]
        | cons pa p2t =>
          cases w2 with
          | nil => simp [hcat]
          | cons wa w2t =>
            simp only [hcat, List.zipWith_cons_cons, zipWith3R_cons]
            rw [zipWith3R_append g lr pr _ la pa _ hr hrw]
            simpa [hcat] using ih hw2 l2t p2t w2t

/-- compute_cross_entropy distributes over batch concatenation. -/
theorem compute_cross_entropy_hcat (l1 p1 w1 l2 p2 w2 : T2) (eta : ℝ)
    (h1p : SameShape2 l1 p1) (h1w : SameShape2 l1 w1) :
    compute_cross_entropy (hcat l1 l2) (hcat p1 p2) (hcat w1 w2) eta
      = hcat (compute_cross_entropy l1 p1 w1 eta) (compute_cross_entropy l2 p2 w2 eta) := by
  simp only [compute_cross_entropy]
  rw [map2_hcat]
  exact zipWith3R_rows_hcat ceElem (h1p.map2_right _) h1w l2
    (map2 (fun x => clampR x eta (1 - eta)) p2) w2

/-- C4: for any two well-shaped batches, the sufficient statistics of the
batch-dimension concatenation are the element-wise sums of the statistics of
the two batches, for all four statistics at once. -/
theorem get_ne_states_additive (l1 p1 w1 l2 p2 w2 : T2) (eta : ℝ)
    (h1p : SameShape2 l1 p1) (h1w : SameShape2 l1 w1)
    (h2p : SameShape2 l2 p2) (h2w : SameShape2 l2 w2) :
    get_ne_states (hcat l1 l2) (hcat p1 p2) (hcat w1 w2) eta
      = addStates (get_ne_states l1 p1 w1 eta) (get_ne_states l2 p2 w2 eta) := by
  unfold get_ne_states addStates
  simp only [NEStates.mk.injEq]
  refine ⟨?_, ?_, ?_, ?_⟩
  · rw [compute_cross_entropy_hcat l1 p1 w1 l2 p2 w2 eta h1p h1w, map_sum_hcat]
  · exact map_sum_hcat w1 w2
  · rw [zip2_hcat (· * ·) h1w.symm w2 l2, map_sum_hcat]
  · rw [zip2_hcat (fun w l => w * (1 - l)) h1w.symm w2 l2, map_sum_hcat]

theorem get_ne_states_additive_witness :
    get_ne_states (hcat [[1, 0]] [[1]]) (hcat [[1 / 2, 1 / 2]] [[1 / 2]])
        (hcat [[1, 1]] [[1]]) (1 / 4)
      = addStates (get_ne_states [[1, 0]] [[1 / 2, 1 / 2]] [[1, 1]] (1 / 4))
          (get_ne_states [[1]] [[1 / 2]] [[1]] (1 / 4)) :=
  get_ne_states_additive [[1, 0]] [[1 / 2, 1 / 2]] [[1, 1]] [[1]] [[1 / 2]] [[1]] (1 / 4)
    (List.Forall₂.cons rfl List.Forall₂.nil) (List.Forall₂.cons rfl List.Forall₂.nil)
    (List.Forall₂.cons rfl List.Forall₂.nil) (List.Forall₂.cons rfl List.Forall₂.nil)

/-- Within one task row, the positive and negative weighted label masses add
up to the weight sum. -/
theorem pos_neg_row_sum : ∀ (wr lr : List ℝ), wr.length = lr.length →
    (List.zipWith (· * ·) wr lr).sum + (List.zipWith (fun w l => w * (1 - l)) wr lr).sum
      = wr.sum := by
  intro wr
  induction wr with
  | nil =>
    intro lr _
    simp
  | cons w ws ih =>
    intro lr h
    cases lr with
    | nil => simp at h
    | cons l ls =>
      simp only [List.zipWith_cons_cons, List.sum_cons]
      have h2 := ih ls (by simpa using h)
      linear_combination h2

/-- The positive and negative mass vectors of one batch add up to the weight
sum vector, task by task. -/
theorem pos_add_neg_eq_wns : ∀ {l w : T2}, SameShape2 l w →
    List.zipWith (· + ·) ((zip2 (· * ·) w l).map List.sum)
        ((zip2 (fun a b => a * (1 - b)) w l).map List.sum)
      = w.map List.sum := by
  intro l w h
  induction h with
  | nil => simp [zip2]
  | @cons lr wr ls ws hr _ ih =>
    simp only [zip2, List.zipWith_cons_cons, List.map_cons]
    rw [pos_neg_row_sum wr lr hr.symm]
    simp only [zip2] at ih
    rw [ih]

/-- Length of the ternary zipWith. -/
theorem zipWith3R_length (f : α → β → γ → δ) :
    ∀ (as : List α) (bs : List β) (cs : List γ),
      (zipWith3R f as bs cs).length = min as.length (min bs.length cs.length)
  | [], _, _ => by simp
  | _ :: _, [], _ => by simp
  | _ :: _, _ :: _, [] => by simp
  | a :: as, b :: bs, c :: cs => by
      simp only [zipWith3R_cons, List.length_cons, zipWith3R_length f as bs cs]
      omega

/-- One well-formed batch satisfies the shape and balance invariant. -/
theorem get_ne_states_inv {n : ℕ} {labels predictions weights : T2} (eta : ℝ)
    (hwf : WellFormedBatch n labels predictions weights) :
    StatesInv n (get_ne_states labels predictions weights eta) := by
  obtain ⟨hlen, hp, hw⟩ := hwf
  have hplen : predictions.length = n := hp.length_eq ▸ hlen
  have hwlen : weights.length = n := hw.length_eq ▸ hlen
  refine ⟨?_, ?_, ?_, ?_, ?_⟩
  · simp only [get_ne_states, compute_cross_entropy, List.length_map]
    rw [zipWith3R_length]
    simp only [map2, List.length_map]
    omega
  · simp [get_ne_states, hwlen]
  · simp only [get_ne_states, zip2, List.length_map, List.length_zipWith]
    omega
  · simp only [get_ne_states, zip2, List.length_map, List.length_zipWith]
    omega
  · exact pos_add_neg_eq_wns hw

/-- Interchange of element-wise additions. -/
theorem zipWith_add_interchange : ∀ (a b c d : List ℝ),
    List.zipWith (· + ·) (List.zipWith (· + ·) a b) (List.zipWith (· + ·) c d)
      = List.zipWith (· + ·) (List.zipWith (· + ·) a c) (List.zipWith (· + ·) b d) := by
  intro a
  induction a with
  | nil => simp
  | cons x xs ih =>
    intro b c d
    cases b with
    | nil => simp
    | cons y ys =>
      cases c with
      | nil => simp
      | cons z zs =>
        cases d with
        | nil => simp
        | cons u us =>
          simp only [List.zipWith_cons_cons, List.cons.injEq]
          exact ⟨by ring, ih ys zs us⟩

/-- The zero quadruple satisfies the invariant. -/
theorem zeroStates_inv (n : ℕ) : StatesInv n (zeroStates n) := by
  refine ⟨by simp [zeroStates], by simp [zeroStates], by simp [zeroStates],
    by simp [zeroStates], ?_⟩
  simp [zeroStates, List.zipWith_replicate]

/-- Adding two invariant quadruples preserves the invariant. -/
theorem addStates_inv {n : ℕ} {s t : NEStates} (hs : StatesInv n s) (ht : StatesInv n t) :
    StatesInv n (addStates s t) := by
  obtain ⟨hs1, hs2, hs3, hs4, hs5⟩ := hs
  obtain ⟨ht1, ht2, ht3, ht4, ht5⟩ := ht
  refine ⟨?_, ?_, ?_, ?_, ?_⟩
  · simp [addStates, List.length_zipWith, hs1, ht1]
  · simp [addStates, List.length_zipWith, hs2, ht2]
  · simp [addStates, List.length_zipWith, hs3, ht3]
  · simp [addStates, List.length_zipWith, hs4, ht4]
  · simp only [addStates]
    rw [zipWith_add_interchange, hs5, ht5]

/-- Folding invariant quadruples from an invariant start stays invariant. -/
theorem foldl_addStates_inv (n : ℕ) : ∀ (L : List NEStates) (z : NEStates),
    StatesInv n z → (∀ st ∈ L, StatesInv n st) → StatesInv n (L.foldl addStates z) := by
  intro L
  induction L with
  | nil =>
    intro z hz _
    exact hz
  | cons a as ih =>
    intro z hz hmem
    exact ih (addStates z a) (addStates_inv hz (hmem a (by simp)))
      (fun st hst => hmem st (by simp [hst]))

/-- Every reachable state satisfies the invariant, in the lifetime view and
in every batch contribution recorded for the window. -/
theorem reachable_inv {n : ℕ} {s : NEState} (h : Reachable n s) :
    StatesInv n s.lifetime ∧ ∀ st ∈ s.history, StatesInv n st := by
  induction h with
  | init =>
    exact ⟨zeroStates_inv n, by simp [initNEState]⟩
  | @step s labels predictions weights _ hwf ih =>
    simp only [NEMetricComputation.update]
    constructor
    · exact addStates_inv ih.1 (get_ne_states_inv neEta hwf)
    · intro st hst
      rw [List.mem_append] at hst
      rcases hst with hst | hst
      · exact ih.2 st hst
      · rw [List.mem_singleton] at hst
        rw [hst]
        exact get_ne_states_inv neEta hwf

/-- C5: in every reachable state of NEMetricComputation the positive and
negative label masses add up, element-wise, to the weighted sample count, in
the lifetime view and in the window view for every window extent. -/
theorem ne_state_invariant {n : ℕ} {s : NEState} (h : Reachable n s) :
    StatesInv n s.lifetime ∧ ∀ k : ℕ, StatesInv n (windowView n s k) := by
  have hmain := reachable_inv h
  refine ⟨hmain.1, fun k => ?_⟩
  unfold windowView
  exact foldl_addStates_inv n _ _ (zeroStates_inv n)
    (fun st hst => hmain.2 st (List.mem_of_mem_drop hst))

theorem ne_state_invariant_witness :
    StatesInv 1 (initNEState 1).lifetime ∧ StatesInv 1 (windowView 1 (initNEState 1) 2) :=
  ⟨(ne_state_invariant (Reachable.init : Reachable 1 (initNEState 1))).1,
   (ne_state_invariant (Reachable.init : Reachable 1 (initNEState 1))).2 2⟩

/-- A valid index into the ternary zipWith is valid into its first list. -/
theorem zipWith3R_lt_left {f : α → β → γ → δ} {as : List α} {bs : List β} {cs : List γ}
    {i : ℕ} (h : i < (zipWith3R f as bs cs).length) : i < as.length := by
  rw [zipWith3R_length] at h
  omega

/-- A valid index into the ternary zipWith is valid into its second list. -/
theorem zipWith3R_lt_mid {f : α → β → γ → δ} {as : List α} {bs : List β} {cs : List γ}
    {i : ℕ} (h : i < (zipWith3R f as bs cs).length) : i < bs.length := by
  rw [zipWith3R_length] at h
  omega

/-- A valid index into the ternary zipWith is valid into its third list. -/
theorem zipWith3R_lt_right {f : α → β → γ → δ} {as : List α} {bs : List β} {cs : List γ}
    {i : ℕ} (h : i < (zipWith3R f as bs cs).length) : i < cs.length := by
  rw [zipWith3R_length] at h
  omega

/-- Reading one entry of the ternary zipWith. -/
theorem zipWith3R_get (f : α → β → γ → δ) :
    ∀ (as : List α) (bs : List β) (cs : List γ) (i : ℕ)
      (h : i < (zipWith3R f as bs cs).length),
      (zipWith3R f as bs cs).get ⟨i, h⟩
        = f (as.get ⟨i, zipWith3R_lt_left h⟩) (bs.get ⟨i, zipWith3R_lt_mid h⟩)
            (cs.get ⟨i, zipWith3R_lt_right h⟩)
  | [], _, _, _, h => absurd h (by simp)
  | _ :: _, [], _, _, h => absurd h (by simp)
  | _ :: _, _ :: _, [], _, h => absurd h (by simp)
  | a :: as, b :: bs, c :: cs, 0, h => rfl
  | a :: as, b :: bs, c :: cs, i + 1, h => by
      simpa using zipWith3R_get f as bs cs i (by simpa using h)

/-- The baseline normalizer of one task is positive as soon as the clamped
mean label is strictly between 0 and 1 and some label mass is present. -/
theorem ce_norm_elem_pos (m p n : ℝ) (hm0 : 0 < m) (hm1 : m < 1) (hp : 0 ≤ p)
    (hn : 0 ≤ n) (hpn : 0 < p + n) : 0 < -(p * log2 m) - n * log2 (1 - m) := by
  have hLm : log2 m < 0 := Real.logb_neg one_lt_two hm0 hm1
  have hLn : log2 (1 - m) < 0 := Real.logb_neg one_lt_two (by linarith) (by linarith)
  rcases lt_or_ge 0 p with hp2 | hp2
  · nlinarith [mul_nonneg hn (neg_nonneg.mpr hLn.le), mul_pos hp2 (neg_pos.mpr hLm)]
  · have hn2 : 0 < n := by linarith
    have hp0 : p = 0 := le_antisymm (by linarith) hp
    nlinarith [mul_pos hn2 (neg_pos.mpr hLn)]

/-- C10: with positive weighted samples, non-negative masses that balance,
and eta strictly between 0 and 1/2, the normalizer computed inside
compute_ne is strictly positive at that task, so the final division is
never by zero on the non-degenerate path. -/
theorem ce_norm_den_pos (wns pos neg : List ℝ) (eta : ℝ) (i : ℕ)
    (h0 : 0 < eta) (h2 : eta < 1 / 2)
    (hip : i < pos.length) (hiw : i < wns.length) (hin : i < neg.length)
    (hpos : 0 ≤ pos.get ⟨i, hip⟩) (hneg : 0 ≤ neg.get ⟨i, hin⟩)
    (hw : 0 < wns.get ⟨i, hiw⟩)
    (hbal : pos.get ⟨i, hip⟩ + neg.get ⟨i, hin⟩ = wns.get ⟨i, hiw⟩)
    (hr : i < (_compute_cross_entropy_norm (List.zipWith (· / ·) pos wns)
        pos neg eta).length) :
    0 < (_compute_cross_entropy_norm (List.zipWith (· / ·) pos wns) pos neg eta).get
        ⟨i, hr⟩ := by
  simp only [_compute_cross_entropy_norm] at hr ⊢
  rw [zipWith3R_get]
  simp only [List.get_eq_getElem, List.getElem_map, List.getElem_zipWith] at hpos hneg hw hbal ⊢
  have hm0 : 0 < clampR (pos[i] / wns[i]) eta (1 - eta) :=
    lt_of_lt_of_le h0 (le_clampR _ _ _ (by linarith))
  have hm1 : clampR (pos[i] / wns[i]) eta (1 - eta) < 1 :=
    lt_of_le_of_lt (clampR_le _ _ _) (by linarith)
  exact ce_norm_elem_pos _ _ _ hm0 hm1 hpos hneg (by rw [hbal]; exact hw)

theorem ce_norm_den_pos_witness :
    0 < (_compute_cross_entropy_norm (List.zipWith (· / ·) [(1 : ℝ)] [2]) [1] [1]
        (1 / 4)).get ⟨0, by norm_num [_compute_cross_entropy_norm]⟩ :=
  ce_norm_den_pos [2] [1] [1] (1 / 4) 0 (by norm_num) (by norm_num)
    (by norm_num) (by norm_num) (by norm_num)
    (by simp) (by simp) (by simp) (by norm_num)
    (by norm_num [_compute_cross_entropy_norm])

/-- With the flag off, compute_ne always takes the unguarded division path. -/
theorem compute_ne_false (ce_sum wns pos neg : List ℝ) (eta : ℝ) :
    compute_ne ce_sum wns pos neg eta false
      = List.zipWith (· / ·) ce_sum
          (_compute_cross_entropy_norm (List.zipWith (· / ·) pos wns) pos neg eta) := by
  unfold compute_ne
  rw [if_neg]
  rintro ⟨h, _⟩
  exact Bool.false_ne_true h

/-- Reading one entry of the ternary zipWith, getElem form. -/
theorem zipWith3R_getElem (f : α → β → γ → δ) (as : List α) (bs : List β) (cs : List γ)
    (i : ℕ) (h : i < (zipWith3R f as bs cs).length) :
    (zipWith3R f as bs cs)[i]
      = f (as.get ⟨i, zipWith3R_lt_left h⟩) (bs.get ⟨i, zipWith3R_lt_mid h⟩)
          (cs.get ⟨i, zipWith3R_lt_right h⟩) := by
  simpa [List.get_eq_getElem] using zipWith3R_get f as bs cs i h

/-- Summing the per-example cross-entropies of a row whose (already clamped)
predictions are all the same constant factors the two logarithms out. -/
theorem ce_row_sum_const (m : ℝ) : ∀ (lr pr wr : List ℝ),
    (∀ q ∈ pr, q = m) → lr.length = pr.length → pr.length = wr.length →
    (zipWith3R ceElem lr pr wr).sum
      = -((List.zipWith (· * ·) wr lr).sum * log2 m)
        - (List.zipWith (fun w l => w * (1 - l)) wr lr).sum * log2 (1 - m) := by
  intro lr
  induction lr with
  | nil =>
    intro pr wr _ hl hp
    cases pr with
    | nil =>
      cases wr with
      | nil => simp
      | cons w ws => simp at hp
    | cons p ps => simp at hl
  | cons l ls ih =>
    intro pr wr h hl hp
    cases pr with
    | nil => simp at hl
    | cons p ps =>
      cases wr with
      | nil => simp at hp
      | cons w ws =>
        have hpm : p = m := h p (by simp)
        have ihr := ih ps ws (fun q hq => h q (by simp [hq])) (by simpa using hl)
          (by simpa using hp)
        simp only [zipWith3R_cons, List.zipWith_cons_cons, List.sum_cons, ceElem, hpm]
        rw [ihr]
        ring

/-- With non-negative weights and labels in the unit interval, both row
masses are non-negative. -/
theorem row_masses_nonneg : ∀ (wr lr : List ℝ),
    (∀ x ∈ wr, 0 ≤ x) → (∀ x ∈ lr, 0 ≤ x ∧ x ≤ 1) →
    0 ≤ (List.zipWith (· * ·) wr lr).sum
    ∧ 0 ≤ (List.zipWith (fun w l => w * (1 - l)) wr lr).sum := by
  intro wr
  induction wr with
  | nil =>
    intro lr _ _
    simp
  | cons w ws ih =>
    intro lr hw hl
    cases lr with
    | nil => simp
    | cons l ls =>
      have hw0 : 0 ≤ w := hw w (by simp)
      have hl0 := hl l (by simp)
      have ihr := ih ls (fun x hx => hw x (by simp [hx])) (fun x hx => hl x (by simp [hx]))
      simp only [List.zipWith_cons_cons, List.sum_cons]
      constructor
      · have hml : 0 ≤ w * l := mul_nonneg hw0 hl0.1
        linarith [ihr.1]
      · have hml : 0 ≤ w * (1 - l) := mul_nonneg hw0 (by linarith [hl0.2])
        linarith [ihr.2]

/-- Within one task row whose predictions all equal the mean label, the
accumulated cross-entropy equals the baseline normalizer, and the normalizer
is positive. -/
theorem ne_baseline_row (lr pr wr : List ℝ) (eta m : ℝ)
    (h0 : 0 < eta) (h2 : eta < 1 / 2)
    (hrlp : lr.length = pr.length) (hrlw : lr.length = wr.length)
    (hwnn : ∀ x ∈ wr, 0 ≤ x) (hlab : ∀ x ∈ lr, 0 ≤ x ∧ x ≤ 1)
    (hwpos : 0 < wr.sum)
    (hm : m = (List.zipWith (· * ·) wr lr).sum / wr.sum)
    (hmean : ∀ p ∈ pr, p = m) (hm1 : eta ≤ m) (hm2 : m ≤ 1 - eta) :
    (zipWith3R ceElem lr (pr.map (fun x => clampR x eta (1 - eta))) wr).sum
      = -((List.zipWith (· * ·) wr lr).sum
            * log2 (clampR ((List.zipWith (· * ·) wr lr).sum / wr.sum) eta (1 - eta)))
        - (List.zipWith (fun w l => w * (1 - l)) wr lr).sum
            * log2 (1 - clampR ((List.zipWith (· * ·) wr lr).sum / wr.sum) eta (1 - eta))
    ∧ 0 < -((List.zipWith (· * ·) wr lr).sum
            * log2 (clampR ((List.zipWith (· * ·) wr lr).sum / wr.sum) eta (1 - eta)))
        - (List.zipWith (fun w l => w * (1 - l)) wr lr).sum
            * log2 (1 - clampR ((List.zipWith (· * ·) wr lr).sum / wr.sum) eta (1 - eta)) := by
  have hcl : clampR ((List.zipWith (· * ·) wr lr).sum / wr.sum) eta (1 - eta) = m := by
    rw [← hm]
    exact clampR_eq_self m eta (1 - eta) hm1 hm2
  have hq : ∀ q ∈ pr.map (fun x => clampR x eta (1 - eta)), q = m := by
    intro q hqm
    obtain ⟨p, hp, rfl⟩ := List.mem_map.mp hqm
    rw [hmean p hp]
    exact clampR_eq_self m eta (1 - eta) hm1 hm2
  have hsum := ce_row_sum_const m lr (pr.map (fun x => clampR x eta (1 - eta))) wr hq
    (by simpa using hrlp) (by simp only [List.length_map]; omega)
  rw [hcl]
  constructor
  · exact hsum
  · have hmass := row_masses_nonneg wr lr hwnn hlab
    have hbal := pos_neg_row_sum wr lr hrlw.symm
    exact ce_norm_elem_pos m _ _ (lt_of_lt_of_le h0 hm1) (lt_of_le_of_lt hm2 (by linarith))
      hmass.1 hmass.2 (by rw [hbal]; exact hwpos)

/-- C8: when every prediction of a task equals that tasks weighted mean
label, the mean lies in [eta, 1 - eta], weights are non-negative with a
positive total and labels lie in the unit interval, the NE computed by
compute_ne from the statistics of get_ne_states equals 1 for that task. -/
theorem ne_baseline (labels predictions weights : T2) (eta m : ℝ) (i : ℕ)
    (lr pr wr : List ℝ)
    (h0 : 0 < eta) (h2 : eta < 1 / 2)
    (hil : i < labels.length) (hip : i < predictions.length) (hiw : i < weights.length)
    (hlr : labels.get ⟨i, hil⟩ = lr) (hpr : predictions.get ⟨i, hip⟩ = pr)
    (hwr : weights.get ⟨i, hiw⟩ = wr)
    (hrlp : lr.length = pr.length) (hrlw : lr.length = wr.length)
    (hwnn : ∀ x ∈ wr, 0 ≤ x) (hlab : ∀ x ∈ lr, 0 ≤ x ∧ x ≤ 1)
    (hwpos : 0 < wr.sum)
    (hm : m = (List.zipWith (· * ·) wr lr).sum / wr.sum)
    (hmean : ∀ p ∈ pr, p = m) (hm1 : eta ≤ m) (hm2 : m ≤ 1 - eta)
    (hr : i < (compute_ne (get_ne_states labels predictions weights eta).cross_entropy_sum
        (get_ne_states labels predictions weights eta).weighted_num_samples
        (get_ne_states labels predictions weights eta).pos_labels
        (get_ne_states labels predictions weights eta).neg_labels eta false).length) :
    (compute_ne (get_ne_states labels predictions weights eta).cross_entropy_sum
        (get_ne_states labels predictions weights eta).weighted_num_samples
        (get_ne_states labels predictions weights eta).pos_labels
        (get_ne_states labels predictions weights eta).neg_labels eta false).get
      ⟨i, hr⟩ = 1 := by
  simp only [List.get_eq_getElem] at hlr hpr hwr
  rw [List.get_of_eq (compute_ne_false _ _ _ _ _)]
  simp only [List.get_eq_getElem, List.getElem_zipWith, _compute_cross_entropy_norm,
    get_ne_states, compute_cross_entropy, map2, zip2, zipWith3R_getElem,
    List.getElem_map, hlr, hpr, hwr]
  obtain ⟨hnum, hden⟩ := ne_baseline_row lr pr wr eta m h0 h2 hrlp hrlw hwnn hlab
    hwpos hm hmean hm1 hm2
  rw [hnum]
  exact div_self (ne_of_gt hden)

theorem ne_baseline_witness :
    (compute_ne
        (get_ne_states [[1, 0]] [[1 / 2, 1 / 2]] [[1, 1]] (1 / 4)).cross_entropy_sum
        (get_ne_states [[1, 0]] [[1 / 2, 1 / 2]] [[1, 1]] (1 / 4)).weighted_num_samples
        (get_ne_states [[1, 0]] [[1 / 2, 1 / 2]] [[1, 1]] (1 / 4)).pos_labels
        (get_ne_states [[1, 0]] [[1 / 2, 1 / 2]] [[1, 1]] (1 / 4)).neg_labels
        (1 / 4) false).get
      ⟨0, by
        norm_num [compute_ne, _compute_cross_entropy_norm, get_ne_states,
          compute_cross_entropy, map2, zip2]⟩ = 1 :=
  ne_baseline [[1, 0]] [[1 / 2, 1 / 2]] [[1, 1]] (1 / 4) (1 / 2) 0 [1, 0] [1 / 2, 1 / 2]
    [1, 1] (by norm_num) (by norm_num) (by norm_num) (by norm_num) (by norm_num)
    rfl rfl rfl rfl rfl
    (by
      intro x hx
      simp only [List.mem_cons, List.not_mem_nil, or_false] at hx
      rcases hx with h | h <;> simp [h])
    (by
      intro x hx
      simp only [List.mem_cons, List.not_mem_nil, or_false] at hx
      rcases hx with h | h <;> norm_num [h])
    (by norm_num) (by norm_num)
    (by
      intro p hp
      simp only [List.mem_cons, List.not_mem_nil, or_false] at hp
      rcases hp with h | h <;> exact h)
    (by norm_num) (by norm_num)
    (by
      norm_num [compute_ne, _compute_cross_entropy_norm, get_ne_states,
        compute_cross_entropy, map2, zip2])

end

end TorchrecNE
